import Mathlib

/-!
Verification of the distance engine in `aligned_reid/utils/distance.py`.

Numpy arrays are modelled over exact real arithmetic:
* a 2-D array is a `Mat` (explicit row/column counts plus an entry function,
  mirroring numpy's shape metadata and data buffer);
* a 3-D array is an `Arr3`;
* an array of arbitrary rank is a `Tensor` (shape list plus an entry
  function indexed by a list of coordinates).
Fallible operations (shape errors raised by numpy, explicit asserts) return
`Except Err`.  Floating point is replaced by `ℝ`; `np.finfo(np.float32).eps`
becomes the exact rational `2⁻²³`.
-/

namespace AlignedReID

noncomputable section

/-- Error taxonomy of the spec: shape mismatches raised by numpy kernels,
invalid distance mode, unsupported dispatch rank, invalid split count, and
out-of-bounds indexing (numpy `IndexError`). -/
inductive Err where
  | shapeMismatch
  | invalidArgument
  | notSupported
  | invalidSplit
  | indexError
deriving DecidableEq

/-- Exact value of `np.finfo(np.float32).eps` = 2^-23. -/
def floatEps : ℝ := 1 / 2 ^ 23

/-- Squared-sum L2 norm of a 1-D array: `np.linalg.norm(v, ord=2, axis=0)`.
The repository only ever uses the default `order=2`, so the embedding fixes
the order to 2. -/
def lpNorm2 (v : List ℝ) : ℝ := Real.sqrt ((v.map (fun a => a ^ 2)).sum)

/-- Source `normalize` instantiated at a 1-D array with the default
`order=2, axis=0`: divide by the norm plus the float32 epsilon. -/
def normalize (v : List ℝ) : List ℝ := v.map (fun a => a / (lpNorm2 v + floatEps))

/-- A 2-D numpy array: shape metadata plus the data.  Entries outside the
declared bounds are irrelevant padding. -/
structure Mat where
  rows : ℕ
  cols : ℕ
  entry : ℕ → ℕ → ℝ

/-- Elementwise equality of two 2-D arrays: same shape and the same value at
every in-bounds position. -/
def matEq (A B : Mat) : Prop :=
  A.rows = B.rows ∧ A.cols = B.cols ∧
    ∀ i j, i < A.rows → j < A.cols → A.entry i j = B.entry i j

/-- Source `array.T` on a 2-D array. -/
def transposeM (A : Mat) : Mat := ⟨A.cols, A.rows, fun i j => A.entry j i⟩

/-- Source `np.matmul` on 2-D arrays: numpy raises a shape error when the
inner dimensions disagree. -/
def matmul (A B : Mat) : Except Err Mat :=
  if A.cols = B.rows then
    .ok ⟨A.rows, B.cols, fun i j => ∑ k ∈ Finset.range A.cols, A.entry i k * B.entry k j⟩
  else .error .shapeMismatch

/-- Row-wise squared norm `np.sum(np.square(array), axis=1)` at row `i`. -/
def rowSqNorm (A : Mat) (i : ℕ) : ℝ := ∑ k ∈ Finset.range A.cols, (A.entry i k) ^ 2

/-- Source `normalize(array, axis=1)` as used by the cosine branch of
`compute_dist`: each row is divided by its L2 norm plus the epsilon. -/
def normalizeRows (A : Mat) : Mat :=
  ⟨A.rows, A.cols, fun i j => A.entry i j / (Real.sqrt (rowSqNorm A i) + floatEps)⟩

/-- The two distance modes accepted by the `assert` in `compute_dist`. -/
inductive DistType where
  | cosine
  | euclidean

/-- Source `compute_dist(array1, array2, type)`.
Cosine: normalize rows of both operands, then `np.matmul(a1, a2.T)`.
Euclidean: expand the squared-distance identity, clamp negatives to zero
(`squared_dist[squared_dist < 0] = 0`, i.e. `max s 0`), take the square root.
In both branches the matmul is the operation that raises when the feature
dimensions disagree. -/
def compute_dist (A B : Mat) (t : DistType) : Except Err Mat :=
  match t with
  | .cosine => matmul (normalizeRows A) (transposeM (normalizeRows B))
  | .euclidean =>
      (matmul A (transposeM B)).map fun P =>
        ⟨A.rows, B.rows, fun i j =>
          Real.sqrt (max (-2 * P.entry i j + rowSqNorm A i + rowSqNorm B j) 0)⟩

/-- An N-D numpy array: shape list plus an entry function over coordinate
lists.  Rank 0 is a scalar read by `entry []`. -/
structure Tensor where
  shape : List ℕ
  entry : List ℕ → ℝ

/-- The dynamic-programming table of `shortest_dist` for one batch slice:
`dpCell c i j` is the value the source loop stores in `dist[i, j]`.
The four source branches become the four equations. -/
def dpCell (c : ℕ → ℕ → ℝ) : ℕ → ℕ → ℝ
  | 0, 0 => c 0 0
  | 0, j + 1 => dpCell c 0 j + c 0 (j + 1)
  | i + 1, 0 => dpCell c i 0 + c (i + 1) 0
  | i + 1, j + 1 =>
      min (dpCell c i (j + 1)) (dpCell c (i + 1) j) + c (i + 1) (j + 1)

/-- Source `shortest_dist(dist_mat)`.  `m, n = dist_mat.shape[:2]` raises on
rank below 2; the final read `dist[-1, -1]` raises numpy's `IndexError` when
either leading dimension is zero; otherwise the result is the filled table at
`(m-1, n-1)`, batched over the trailing dimensions. -/
def shortest_dist (t : Tensor) : Except Err Tensor :=
  match t.shape with
  | m :: n :: rest =>
      if m = 0 ∨ n = 0 then .error .indexError
      else .ok ⟨rest, fun idx => dpCell (fun i j => t.entry (i :: j :: idx)) (m - 1) (n - 1)⟩
  | _ => .error .shapeMismatch

/-- Indexing `t[0]` on the first axis: numpy raises `IndexError` on a rank-0
input or an empty first axis, otherwise drops the axis. -/
def tensorAt0 (t : Tensor) : Except Err Tensor :=
  match t.shape with
  | [] => .error .indexError
  | d :: rest => if d = 0 then .error .indexError else .ok ⟨rest, fun idx => t.entry (0 :: idx)⟩

/-- Source `dist_mat[np.newaxis]`: prepend an axis of length one. -/
def newaxis (A : Mat) : Tensor :=
  ⟨[1, A.rows, A.cols], fun idx => A.entry (idx.getD 1 0) (idx.getD 2 0)⟩

/-- The squashing nonlinearity `(np.exp(e) - 1) / (np.exp(e) + 1)`. -/
def squash (e : ℝ) : ℝ := (Real.exp e - 1) / (Real.exp e + 1)

/-- Elementwise squashing of a 2-D array. -/
def squashMat (A : Mat) : Mat := ⟨A.rows, A.cols, fun i j => squash (A.entry i j)⟩

/-- Source `meta_local_dist(x, y)`: euclidean pairwise distances, squashing,
then `shortest_dist(dist_mat[np.newaxis])[0]`. -/
def meta_local_dist (x y : Mat) : Except Err ℝ := do
  let eu ← compute_dist x y .euclidean
  let t ← shortest_dist (newaxis (squashMat eu))
  let r ← tensorAt0 t
  return r.entry []

/-- A 3-D numpy array. -/
structure Arr3 where
  dim0 : ℕ
  dim1 : ℕ
  dim2 : ℕ
  entry : ℕ → ℕ → ℕ → ℝ

/-- Slice `x[i]` of a 3-D array. -/
def sliceA (x : Arr3) (i : ℕ) : Mat := ⟨x.dim1, x.dim2, fun a b => x.entry i a b⟩

/-- Source `serial_local_dist(x, y)`: a double loop filling entry `(i, j)`
with `meta_local_dist(x[i], y[j])`.  When either loop range is empty the
`np.zeros([M, N])` result is returned untouched.  Otherwise iteration
`(0, 0)` runs first; whether `meta_local_dist` raises depends only on the
slice shapes, which are identical for all slices, so the call at `(0, 0)`
decides the error behaviour of the whole loop. -/
def serial_local_dist (x y : Arr3) : Except Err Mat :=
  if x.dim0 = 0 ∨ y.dim0 = 0 then .ok ⟨x.dim0, y.dim0, fun _ _ => 0⟩
  else
    match meta_local_dist (sliceA x 0) (sliceA y 0) with
    | .error e => .error e
    | .ok _ =>
        .ok ⟨x.dim0, y.dim0, fun i j =>
          (meta_local_dist (sliceA x i) (sliceA y j)).toOption.getD 0⟩

/-- Source `x.reshape([M * m, d])` on a 3-D array, row-major. -/
def reshapeTo2 (x : Arr3) (d : ℕ) : Mat :=
  ⟨x.dim0 * x.dim1, d, fun r k => x.entry (r / x.dim1) (r % x.dim1) k⟩

/-- Source `parallel_local_dist(x, y)`.  Note the source reads
`M, m, d = x.shape` and then `N, n, d = y.shape`, rebinding `d` to `y`'s last
dimension; `x.reshape([M * m, d])` therefore raises a shape error exactly when
the element counts `M * m * x.dim2` and `M * m * y.dim2` disagree.  The
squashed `[M*m, N*n]` distance matrix is reshaped to `[M, m, N, n]` and
transposed by `[1, 3, 0, 2]` to `[m, n, M, N]`: the transposed entry at
`[a, b, i, j]` is the flat entry at row `i*m + a`, column `j*n + b`. -/
def parallel_local_dist (x y : Arr3) : Except Err Mat :=
  if x.dim0 * x.dim1 * x.dim2 ≠ x.dim0 * x.dim1 * y.dim2 then .error .shapeMismatch
  else do
    let dm ← compute_dist (reshapeTo2 x y.dim2) (reshapeTo2 y y.dim2) .euclidean
    let sq := squashMat dm
    let t : Tensor := ⟨[x.dim1, y.dim1, x.dim0, y.dim0], fun idx =>
      sq.entry (idx.getD 2 0 * x.dim1 + idx.getD 0 0) (idx.getD 3 0 * y.dim1 + idx.getD 1 0)⟩
    let r ← shortest_dist t
    return ⟨x.dim0, y.dim0, fun i j => r.entry [i, j]⟩

/-- View a rank-2 `Tensor` as a `Mat` (used by the dispatcher). -/
def matOfT (t : Tensor) : Mat :=
  ⟨t.shape.getD 0 0, t.shape.getD 1 0, fun i j => t.entry [i, j]⟩

/-- View a rank-3 `Tensor` as an `Arr3` (used by the dispatcher). -/
def arr3OfT (t : Tensor) : Arr3 :=
  ⟨t.shape.getD 0 0, t.shape.getD 1 0, t.shape.getD 2 0, fun i j k => t.entry [i, j, k]⟩

/-- A scalar as a rank-0 tensor. -/
def scalarT (r : ℝ) : Tensor := ⟨[], fun _ => r⟩

/-- A 2-D array as a rank-2 tensor. -/
def matT (A : Mat) : Tensor :=
  ⟨[A.rows, A.cols], fun idx => A.entry (idx.getD 0 0) (idx.getD 1 0)⟩

/-- Source `local_dist(x, y)`: dispatch on `ndim`, raising the not-supported
error for any rank combination other than 2-D/2-D and 3-D/3-D. -/
def local_dist (x y : Tensor) : Except Err Tensor :=
  if x.shape.length = 2 ∧ y.shape.length = 2 then
    (meta_local_dist (matOfT x) (matOfT y)).map scalarT
  else if x.shape.length = 3 ∧ y.shape.length = 3 then
    (parallel_local_dist (arr3OfT x) (arr3OfT y)).map matT
  else .error .notSupported

/-- Section sizes of `np.array_split` of a length-`len` axis into `k`
sections: the first `len % k` sections get `len / k + 1` elements, the rest
get `len / k` (possibly zero when `k > len`). -/
def sectionSizes (len k : ℕ) : List ℕ :=
  List.replicate (len % k) (len / k + 1) ++ List.replicate (k - len % k) (len / k)

/-- Cut a 2-D array into consecutive row blocks of the given sizes. -/
def splitRowsAt (A : Mat) : List ℕ → List Mat
  | [] => []
  | s :: rest =>
      ⟨s, A.cols, fun i j => A.entry i j⟩ ::
        splitRowsAt ⟨A.rows - s, A.cols, fun i j => A.entry (s + i) j⟩ rest

/-- Cut a 2-D array into consecutive column blocks of the given sizes. -/
def splitColsAt (A : Mat) : List ℕ → List Mat
  | [] => []
  | s :: rest =>
      ⟨A.rows, s, fun i j => A.entry i j⟩ ::
        splitColsAt ⟨A.rows, A.cols - s, fun i j => A.entry i (s + j)⟩ rest

/-- Source `np.array_split(A, k, axis)` on a 2-D array: numpy reads
`A.shape[axis]` first (raising an index error for an out-of-range axis), then
rejects a non-positive section count, then splits as equally as possible.
Section counts larger than the axis length are accepted and produce empty
sections. -/
def array_split (A : Mat) (k axis : ℕ) : Except Err (List Mat) :=
  if 2 ≤ axis then .error .indexError
  else if k = 0 then .error .invalidSplit
  else if axis = 0 then .ok (splitRowsAt A (sectionSizes A.rows k))
  else .ok (splitColsAt A (sectionSizes A.cols k))

/-- Source `np.concatenate(mats, axis=0)`: numpy requires at least one array
and agreeing trailing dimensions. -/
def concatRows : List Mat → Except Err Mat
  | [] => .error .shapeMismatch
  | [A] => .ok A
  | A :: B :: rest => do
      let C ← concatRows (B :: rest)
      if A.cols = C.cols then
        .ok ⟨A.rows + C.rows, A.cols, fun i j =>
          if i < A.rows then A.entry i j else C.entry (i - A.rows) j⟩
      else .error .shapeMismatch

/-- Source `np.concatenate(mats, axis=1)`: agreeing leading dimensions,
columns accumulate. -/
def concatCols : List Mat → Except Err Mat
  | [] => .error .shapeMismatch
  | [A] => .ok A
  | A :: B :: rest => do
      let C ← concatCols (B :: rest)
      if A.rows = C.rows then
        .ok ⟨A.rows, A.cols + C.cols, fun i j =>
          if j < A.cols then A.entry i j else C.entry i (j - A.cols)⟩
      else .error .shapeMismatch

/-- The `split_x_or_y` argument. -/
inductive SplitChoice where
  | x
  | y

/-- Source `low_memory_matrix_op(x, y, func, split_x_or_y, axis, num_splits)`.
The `verbose` progress printing is a side channel with no effect on the
returned value and is omitted.  `func` is modelled as a pure matrix
function, matching its documented contract. -/
def low_memory_matrix_op (x y : Mat) (func : Mat → Mat → Mat)
    (s : SplitChoice) (axis num_splits : ℕ) : Except Err Mat := do
  let to_split := match s with | .x => x | .y => y
  let parts ← array_split to_split num_splits axis
  let mats := parts.map fun part =>
    match s with | .x => func part y | .y => func x part
  match s with
  | .x => concatRows mats
  | .y => concatCols mats

/-- Total cost of a path through a cost grid: the sum of the visited cells. -/
def pathCost (c : ℕ → ℕ → ℝ) (p : List (ℕ × ℕ)) : ℝ :=
  (p.map (fun q => c q.1 q.2)).sum

/-- All monotonic paths from cell `(0, 0)` to cell `(i, j)` whose steps
advance exactly one index at a time (down or right, never both). -/
def allPaths : ℕ → ℕ → List (List (ℕ × ℕ))
  | 0, 0 => [[(0, 0)]]
  | 0, j + 1 => (allPaths 0 j).map (fun p => p ++ [(0, j + 1)])
  | i + 1, 0 => (allPaths i 0).map (fun p => p ++ [(i + 1, 0)])
  | i + 1, j + 1 =>
      ((allPaths i (j + 1)).map (fun p => p ++ [(i + 1, j + 1)])) ++
        ((allPaths (i + 1) j).map (fun p => p ++ [(i + 1, j + 1)]))

/-- Concrete input for the batch-equivalence check: one sequence of a single
one-dimensional descriptor `[0]`. -/
def cexX : Arr3 := ⟨1, 1, 1, fun _ _ _ => 0⟩

/-- Concrete input for the batch-equivalence check: one sequence of two
one-dimensional descriptors `[0]` and `[1]`. -/
def cexY : Arr3 := ⟨1, 2, 1, fun _ b _ => if b = 0 then 0 else 1⟩

/-- A concrete 2-row operand for the chunked-evaluator checks. -/
def cexMatX : Mat := ⟨2, 1, fun _ _ => 0⟩

/-- A concrete 1-row operand for the chunked-evaluator checks. -/
def cexMatY : Mat := ⟨1, 1, fun _ _ => 0⟩

/-- A well-behaved pairwise matrix function for the chunked-evaluator
checks: the all-zeros `[M, N]` matrix. -/
def fPair : Mat → Mat → Mat := fun A B => ⟨A.rows, B.rows, fun _ _ => 0⟩

/-- A matrix function that is not pairwise in its first operand: it returns
the 1-by-1 matrix holding the operand's row count, so splitting the operand
changes the result. -/
def fBad : Mat → Mat → Mat := fun A _ => ⟨1, 1, fun _ _ => (A.rows : ℝ)⟩

/-- Rank-1 tensor used to exercise the dispatcher's unsupported-rank branch. -/
def cexT1 : Tensor := ⟨[1], fun _ => 0⟩

lemma pathCost_append (c : ℕ → ℕ → ℝ) (p q : List (ℕ × ℕ)) :
    pathCost c (p ++ q) = pathCost c p + pathCost c q := by
  simp [pathCost]

lemma pathCost_single (c : ℕ → ℕ → ℝ) (a b : ℕ) :
    pathCost c [(a, b)] = c a b := by
  simp [pathCost]

lemma dpCell_le (c : ℕ → ℕ → ℝ) :
    ∀ N i j, i + j ≤ N → ∀ p ∈ allPaths i j, dpCell c i j ≤ pathCost c p := by
  intro N
  induction N with
  | zero =>
      intro i j hij p hp
      obtain ⟨rfl, rfl⟩ : i = 0 ∧ j = 0 := by omega
      simp only [allPaths, List.mem_singleton] at hp
      subst hp
      simp [dpCell, pathCost]
  | succ N ih =>
      intro i j hij p hp
      cases i with
      | zero =>
          cases j with
          | zero =>
              simp only [allPaths, List.mem_singleton] at hp
              subst hp
              simp [dpCell, pathCost]
          | succ j =>
              simp only [allPaths, List.mem_map] at hp
              obtain ⟨p0, hp0, rfl⟩ := hp
              rw [pathCost_append, pathCost_single]
              have h1 := ih 0 j (by omega) p0 hp0
              have h2 : dpCell c 0 (j + 1) = dpCell c 0 j + c 0 (j + 1) := by
                simp [dpCell]
              linarith
      | succ i =>
          cases j with
          | zero =>
              simp only [allPaths, List.mem_map] at hp
              obtain ⟨p0, hp0, rfl⟩ := hp
              rw [pathCost_append, pathCost_single]
              have h1 := ih i 0 (by omega) p0 hp0
              have h2 : dpCell c (i + 1) 0 = dpCell c i 0 + c (i + 1) 0 := by
                simp [dpCell]
              linarith
          | succ j =>
              simp only [allPaths, List.mem_append, List.mem_map] at hp
              have h2 : dpCell c (i + 1) (j + 1) =
                  min (dpCell c i (j + 1)) (dpCell c (i + 1) j) + c (i + 1) (j + 1) := by
                simp [dpCell]
              rcases hp with ⟨p0, hp0, rfl⟩ | ⟨p0, hp0, rfl⟩
              · rw [pathCost_append, pathCost_single]
                have h1 := ih i (j + 1) (by omega) p0 hp0
                have h3 : min (dpCell c i (j + 1)) (dpCell c (i + 1) j) ≤ dpCell c i (j + 1) :=
                  min_le_left _ _
                linarith
              · rw [pathCost_append, pathCost_single]
                have h1 := ih (i + 1) j (by omega) p0 hp0
                have h3 : min (dpCell c i (j + 1)) (dpCell c (i + 1) j) ≤ dpCell c (i + 1) j :=
                  min_le_right _ _
                linarith

lemma dpCell_attained (c : ℕ → ℕ → ℝ) :
    ∀ N i j, i + j ≤ N → ∃ p, p ∈ allPaths i j ∧ dpCell c i j = pathCost c p := by
  intro N
  induction N with
  | zero =>
      intro i j hij
      obtain ⟨rfl, rfl⟩ : i = 0 ∧ j = 0 := by omega
      exact ⟨[(0, 0)], by simp [allPaths], by simp [dpCell, pathCost]⟩
  | succ N ih =>
      intro i j hij
      cases i with
      | zero =>
          cases j with
          | zero => exact ⟨[(0, 0)], by simp [allPaths], by simp [dpCell, pathCost]⟩
          | succ j =>
              obtain ⟨p0, hp0, hc0⟩ := ih 0 j (by omega)
              refine ⟨p0 ++ [(0, j + 1)], ?_, ?_⟩
              · simp only [allPaths, List.mem_map]
                exact ⟨p0, hp0, rfl⟩
              · rw [pathCost_append, pathCost_single]
                have h2 : dpCell c 0 (j + 1) = dpCell c 0 j + c 0 (j + 1) := by
                  simp [dpCell]
                rw [h2, hc0]
      | succ i =>
          cases j with
          | zero =>
              obtain ⟨p0, hp0, hc0⟩ := ih i 0 (by omega)
              refine ⟨p0 ++ [(i + 1, 0)], ?_, ?_⟩
              · simp only [allPaths, List.mem_map]
                exact ⟨p0, hp0, rfl⟩
              · rw [pathCost_append, pathCost_single]
                have h2 : dpCell c (i + 1) 0 = dpCell c i 0 + c (i + 1) 0 := by
                  simp [dpCell]
                rw [h2, hc0]
          | succ j =>
              have h2 : dpCell c (i + 1) (j + 1) =
                  min (dpCell c i (j + 1)) (dpCell c (i + 1) j) + c (i + 1) (j + 1) := by
                simp [dpCell]
              rcases min_cases (dpCell c i (j + 1)) (dpCell c (i + 1) j) with
                ⟨hmin, _⟩ | ⟨hmin, _⟩
              · obtain ⟨p0, hp0, hc0⟩ := ih i (j + 1) (by omega)
                refine ⟨p0 ++ [(i + 1, j + 1)], ?_, ?_⟩
                · simp only [allPaths, List.mem_append, List.mem_map]
                  exact Or.inl ⟨p0, hp0, rfl⟩
                · rw [pathCost_append, pathCost_single, h2, hmin, hc0]
              · obtain ⟨p0, hp0, hc0⟩ := ih (i + 1) j (by omega)
                refine ⟨p0 ++ [(i + 1, j + 1)], ?_, ?_⟩
                · simp only [allPaths, List.mem_append, List.mem_map]
                  exact Or.inr ⟨p0, hp0, rfl⟩
                · rw [pathCost_append, pathCost_single, h2, hmin, hc0]

lemma sq_expand (n : ℕ) (a b : ℕ → ℝ) :
    -2 * (∑ k ∈ Finset.range n, a k * b k) + (∑ k ∈ Finset.range n, a k ^ 2) +
        (∑ k ∈ Finset.range n, b k ^ 2) =
      ∑ k ∈ Finset.range n, (a k - b k) ^ 2 := by
  have h : ∀ k ∈ Finset.range n, (a k - b k) ^ 2 = a k ^ 2 + b k ^ 2 - 2 * (a k * b k) :=
    fun k _ => by ring
  rw [Finset.sum_congr rfl h, Finset.sum_sub_distrib, Finset.sum_add_distrib]
  rw [show (∑ k ∈ Finset.range n, 2 * (a k * b k)) = 2 * ∑ k ∈ Finset.range n, a k * b k from
    (Finset.mul_sum _ _ _).symm]
  ring

lemma compute_dist_euclidean (A B : Mat) (h : A.cols = B.cols) :
    compute_dist A B .euclidean = .ok ⟨A.rows, B.rows, fun i j =>
      Real.sqrt (∑ k ∈ Finset.range A.cols, (A.entry i k - B.entry j k) ^ 2)⟩ := by
  have hmm : matmul A (transposeM B) = .ok ⟨A.rows, B.rows, fun i j =>
      ∑ k ∈ Finset.range A.cols, A.entry i k * B.entry j k⟩ := by
    unfold matmul transposeM
    simp only [if_pos h]
  unfold compute_dist
  rw [hmm]
  simp only [Except.map]
  congr 1
  refine congrArg (Mat.mk A.rows B.rows) (funext fun i => funext fun j => ?_)
  have hs : (-2 * (∑ k ∈ Finset.range A.cols, A.entry i k * B.entry j k) +
      rowSqNorm A i + rowSqNorm B j) =
      ∑ k ∈ Finset.range A.cols, (A.entry i k - B.entry j k) ^ 2 := by
    unfold rowSqNorm
    rw [← h, sq_expand]
  rw [hs, max_eq_left (Finset.sum_nonneg fun k _ => sq_nonneg _)]

/-- C5: for non-empty operands with matching feature dimension, euclidean
`compute_dist` succeeds with shape `[m1, m2]`, every entry is the true
Euclidean distance between the corresponding rows (the clamp of negative
squared distances is a no-op in exact arithmetic), every entry is
non-negative, and the self-distance diagonal is exactly zero. -/
theorem c5_compute_dist_euclidean (A B : Mat) (hc : A.cols = B.cols)
    (hA : 1 ≤ A.rows) (hB : 1 ≤ B.rows) :
    ∃ D, compute_dist A B .euclidean = .ok D ∧ D.rows = A.rows ∧ D.cols = B.rows ∧
      (∀ i j, D.entry i j =
        Real.sqrt (∑ k ∈ Finset.range A.cols, (A.entry i k - B.entry j k) ^ 2)) ∧
      (∀ i j, 0 ≤ D.entry i j) ∧
      ∀ E, compute_dist A A .euclidean = .ok E → ∀ i, E.entry i i = 0 := by
  refine ⟨_, compute_dist_euclidean A B hc, rfl, rfl, fun i j => rfl,
    fun i j => Real.sqrt_nonneg _, ?_⟩
  intro E hE i
  rw [compute_dist_euclidean A A rfl] at hE
  injection hE with hEq
  subst hEq
  simp

/-- Witness for C5 at a concrete pair of 1-by-1 arrays. -/
theorem c5_compute_dist_euclidean_witness :
    ∃ D, compute_dist ⟨1, 1, fun _ _ => 0⟩ ⟨1, 1, fun _ _ => 1⟩ .euclidean = .ok D ∧
      D.rows = 1 ∧ D.cols = 1 ∧
      (∀ i j, D.entry i j = Real.sqrt (∑ k ∈ Finset.range 1,
        (Mat.entry ⟨1, 1, fun _ _ => 0⟩ i k - Mat.entry ⟨1, 1, fun _ _ => 1⟩ j k) ^ 2)) ∧
      (∀ i j, 0 ≤ D.entry i j) ∧
      ∀ E, compute_dist ⟨1, 1, fun _ _ => 0⟩ ⟨1, 1, fun _ _ => 0⟩ .euclidean = .ok E →
        ∀ i, E.entry i i = 0 :=
  c5_compute_dist_euclidean ⟨1, 1, fun _ _ => 0⟩ ⟨1, 1, fun _ _ => 1⟩ rfl le_rfl le_rfl

lemma dpCell_row (c : ℕ → ℕ → ℝ) : ∀ j, dpCell c 0 j = ∑ t ∈ Finset.range (j + 1), c 0 t := by
  intro j
  induction j with
  | zero => simp [dpCell]
  | succ j ih =>
      have h2 : dpCell c 0 (j + 1) = dpCell c 0 j + c 0 (j + 1) := by simp [dpCell]
      rw [h2, ih, Finset.sum_range_succ (fun t => c 0 t) (j + 1)]

lemma meta_local_dist_eq (x y : Mat) (hc : x.cols = y.cols)
    (hm : 1 ≤ x.rows) (hn : 1 ≤ y.rows) :
    meta_local_dist x y = .ok (∑ i ∈ Finset.range x.rows,
      squash (Real.sqrt (∑ k ∈ Finset.range x.cols, (x.entry i k - y.entry 0 k) ^ 2))) := by
  unfold meta_local_dist
  rw [compute_dist_euclidean x y hc]
  simp only [bind, Except.bind]
  unfold shortest_dist newaxis squashMat
  simp only []
  have hcond : ¬(1 = 0 ∨ x.rows = 0) := by omega
  rw [if_neg hcond]
  unfold tensorAt0
  simp only []
  have hy : ¬(y.rows = 0) := by omega
  rw [if_neg hy]
  simp only [pure, Except.pure, Except.ok.injEq]
  have hx1 : x.rows - 1 + 1 = x.rows := by omega
  have h11 : (1 : ℕ) - 1 = 0 := rfl
  rw [h11, dpCell_row, hx1]
  exact Finset.sum_congr rfl fun i _ => rfl

/-- C3: `meta_local_dist(x, y)` returns the sum over `i` of the squashed
Euclidean distance between row `i` of `x` and row 0 of `y` — the `np.newaxis`
makes the DP run over a `1 × m` grid with the `n` columns as batch, and the
trailing `[0]` selects the first batch slice, i.e. the first column sum of
the squashed pairwise-distance matrix. -/
theorem c3_meta_first_column (x y : Mat) (hc : x.cols = y.cols)
    (hm : 1 ≤ x.rows) (hn : 1 ≤ y.rows) :
    meta_local_dist x y = .ok (∑ i ∈ Finset.range x.rows,
      squash (Real.sqrt (∑ k ∈ Finset.range x.cols, (x.entry i k - y.entry 0 k) ^ 2))) :=
  meta_local_dist_eq x y hc hm hn

/-- Witness for C3 at concrete 1-by-1 inputs. -/
theorem c3_meta_first_column_witness :
    meta_local_dist ⟨1, 1, fun _ _ => 0⟩ ⟨1, 1, fun _ _ => 0⟩ = .ok (∑ i ∈ Finset.range 1,
      squash (Real.sqrt (∑ k ∈ Finset.range 1,
        (Mat.entry ⟨1, 1, fun _ _ => 0⟩ i k - Mat.entry ⟨1, 1, fun _ _ => 0⟩ 0 k) ^ 2))) :=
  c3_meta_first_column ⟨1, 1, fun _ _ => 0⟩ ⟨1, 1, fun _ _ => 0⟩ rfl le_rfl le_rfl

/-- C8: whenever the feature dimensions of the two operands disagree,
`compute_dist` fails with the shape-mismatch error, in both modes (the
mismatch is raised by the matmul against the transposed second operand). -/
theorem c8_compute_dist_shape_mismatch (A B : Mat) (t : DistType) (h : A.cols ≠ B.cols) :
    compute_dist A B t = .error .shapeMismatch := by
  cases t with
  | cosine =>
      unfold compute_dist matmul normalizeRows transposeM
      simp only []
      rw [if_neg h]
  | euclidean =>
      unfold compute_dist matmul transposeM
      simp only []
      rw [if_neg h]
      rfl

/-- Witness for C8 at concrete arrays of shapes `[1, 1]` and `[1, 2]`. -/
theorem c8_compute_dist_shape_mismatch_witness :
    compute_dist ⟨1, 1, fun _ _ => 0⟩ ⟨1, 2, fun _ _ => 0⟩ .euclidean =
      .error .shapeMismatch :=
  c8_compute_dist_shape_mismatch ⟨1, 1, fun _ _ => 0⟩ ⟨1, 2, fun _ _ => 0⟩ .euclidean
    (by decide)

/-- C9 counterexample: a rank-2 cost array with empty leading dimensions
makes `shortest_dist` fail (the final `dist[-1, -1]` read is out of bounds),
so a malformed rank is not the only failure mode. -/
theorem c9_counterexample :
    shortest_dist ⟨[0, 0], fun _ => 0⟩ = .error .indexError ∧
    (Tensor.shape ⟨[0, 0], fun _ => 0⟩).length = 2 ∧
    (Except.error Err.indexError : Except Err Tensor) ≠ .error .shapeMismatch := by
  refine ⟨rfl, rfl, ?_⟩
  intro h
  injection h with h
  cases h

/-- C9 amended: `shortest_dist` fails with the shape-mismatch error exactly
on inputs of rank below 2; an input of rank at least 2 succeeds when both
leading dimensions are at least 1, but fails with an index error (the
`dist[-1, -1]` read) when either leading dimension is zero. -/
theorem c9_shortest_dist_errors_amended :
    (∀ t : Tensor, t.shape.length < 2 → shortest_dist t = .error .shapeMismatch) ∧
    (∀ (t : Tensor) (m n : ℕ) (rest : List ℕ), t.shape = m :: n :: rest →
      1 ≤ m → 1 ≤ n → ∃ r, shortest_dist t = .ok r ∧ r.shape = rest) ∧
    (∀ (t : Tensor) (m n : ℕ) (rest : List ℕ), t.shape = m :: n :: rest →
      m = 0 ∨ n = 0 → shortest_dist t = .error .indexError) := by
  refine ⟨fun t hlen => ?_, fun t m n rest hs hm hn => ?_, fun t m n rest hs hz => ?_⟩
  · obtain ⟨shape, entry⟩ := t
    rcases shape with _ | ⟨a, _ | ⟨b, rest⟩⟩
    · rfl
    · rfl
    · exact absurd hlen (by simp)
  · unfold shortest_dist
    rw [hs]
    simp only []
    rw [if_neg (by omega)]
    exact ⟨_, rfl, rfl⟩
  · unfold shortest_dist
    rw [hs]
    simp only []
    rw [if_pos hz]

/-- Witness for C9's amended statement at concrete tensors of rank 0, rank 2
with positive dimensions, and rank 2 with an empty first dimension. -/
theorem c9_shortest_dist_errors_amended_witness :
    shortest_dist ⟨[], fun _ => 0⟩ = .error .shapeMismatch ∧
    (∃ r, shortest_dist ⟨[1, 1], fun _ => 1⟩ = .ok r ∧ r.shape = []) ∧
    shortest_dist ⟨[0, 2], fun _ => 0⟩ = .error .indexError :=
  ⟨c9_shortest_dist_errors_amended.1 ⟨[], fun _ => 0⟩ (by decide),
    c9_shortest_dist_errors_amended.2.1 ⟨[1, 1], fun _ => 1⟩ 1 1 [] rfl le_rfl le_rfl,
    c9_shortest_dist_errors_amended.2.2 ⟨[0, 2], fun _ => 0⟩ 0 2 [] rfl (Or.inl rfl)⟩

/-- C7: the dispatcher `local_dist` routes 2-D/2-D inputs to the single-pair
path (returning exactly the scalar `meta_local_dist` computes), 3-D/3-D
inputs to `parallel_local_dist`, and fails with the not-supported error on
every other rank combination. -/
theorem c7_local_dist_dispatch :
    (∀ x y : Tensor, x.shape.length = 2 → y.shape.length = 2 →
      local_dist x y = (meta_local_dist (matOfT x) (matOfT y)).map scalarT) ∧
    (∀ x y : Tensor, x.shape.length = 3 → y.shape.length = 3 →
      local_dist x y = (parallel_local_dist (arr3OfT x) (arr3OfT y)).map matT) ∧
    (∀ x y : Tensor, ¬(x.shape.length = 2 ∧ y.shape.length = 2) →
      ¬(x.shape.length = 3 ∧ y.shape.length = 3) →
      local_dist x y = .error .notSupported) := by
  refine ⟨fun x y hx hy => ?_, fun x y hx hy => ?_, fun x y h2 h3 => ?_⟩
  · unfold local_dist
    rw [if_pos ⟨hx, hy⟩]
  · unfold local_dist
    rw [if_neg (by rintro ⟨hc, _⟩; omega), if_pos ⟨hx, hy⟩]
  · unfold local_dist
    rw [if_neg h2, if_neg h3]

/-- Witness for C7: rank-1 inputs hit the not-supported branch. -/
theorem c7_local_dist_dispatch_witness :
    local_dist cexT1 cexT1 = .error .notSupported :=
  c7_local_dist_dispatch.2.2 cexT1 cexT1 (by decide) (by decide)

lemma squash_zero : squash 0 = 0 := by
  simp [squash]

lemma squash_one_pos : 0 < squash 1 := by
  have h1 : (1 : ℝ) < Real.exp 1 := by
    calc (1 : ℝ) = Real.exp 0 := Real.exp_zero.symm
    _ < Real.exp 1 := Real.exp_lt_exp.mpr zero_lt_one
  exact div_pos (by linarith) (by positivity)

lemma serial_cex_entry :
    (serial_local_dist cexX cexY).map (fun S => S.entry 0 0) = .ok 0 := by
  have hmeta : meta_local_dist (sliceA cexX 0) (sliceA cexY 0) = .ok 0 := by
    rw [meta_local_dist_eq (sliceA cexX 0) (sliceA cexY 0) rfl le_rfl
      (by norm_num [sliceA, cexY])]
    norm_num [sliceA, cexX, cexY, squash_zero]
  unfold serial_local_dist
  rw [if_neg (by norm_num [cexX, cexY])]
  rw [hmeta]
  simp [Except.map, hmeta, Except.toOption]

lemma parallel_cex_entry :
    (parallel_local_dist cexX cexY).map (fun P => P.entry 0 0) = .ok (squash 1) := by
  have hcd : compute_dist (reshapeTo2 cexX cexY.dim2) (reshapeTo2 cexY cexY.dim2) .euclidean
      = .ok ⟨1, 2, fun i j => Real.sqrt (∑ k ∈ Finset.range 1,
          ((reshapeTo2 cexX cexY.dim2).entry i k - (reshapeTo2 cexY cexY.dim2).entry j k) ^ 2)⟩ :=
    compute_dist_euclidean _ _ rfl
  unfold parallel_local_dist
  rw [if_neg (by norm_num [cexX, cexY])]
  simp only [bind, Except.bind]
  rw [hcd]
  unfold shortest_dist squashMat
  simp only []
  rw [if_neg (by norm_num [cexX, cexY])]
  simp only [Except.map, pure, Except.pure, Except.ok.injEq]
  have hdX : cexX.dim1 - 1 = 0 := rfl
  have hdY : cexY.dim1 - 1 = 1 := rfl
  rw [hdX, hdY]
  have hdp := dpCell_row (fun i j =>
    squash ((⟨1, 2, fun i j => Real.sqrt (∑ k ∈ Finset.range 1,
      ((reshapeTo2 cexX cexY.dim2).entry i k - (reshapeTo2 cexY cexY.dim2).entry j k) ^ 2)⟩ :
        Mat).entry
      (([i, j, 0, 0].getD 2 0) * cexX.dim1 + ([i, j, 0, 0].getD 0 0))
      (([i, j, 0, 0].getD 3 0) * cexY.dim1 + ([i, j, 0, 0].getD 1 0)))) 1
  rw [hdp]
  rw [Finset.sum_range_succ, Finset.sum_range_one]
  norm_num [cexX, cexY, reshapeTo2, squash_zero]

/-- C1 (code bug): at `x = [[[0]]]` (shape `[1,1,1]`) and `y = [[[0],[1]]]`
(shape `[1,2,1]`), the serial form gives 0 while the vectorized batch form
gives `squash 1 = (e-1)/(e+1) > 0`, so `parallel_local_dist` does not match
`serial_local_dist` elementwise: `meta_local_dist`'s `dist_mat[np.newaxis]`
runs the DP over a `1 × m` grid with the columns as batch and sums only the
first column, while `parallel_local_dist` runs the DP over the full
`m × n` grid. -/
theorem c1_parallel_serial_disagree :
    (serial_local_dist cexX cexY).map (fun S => S.entry 0 0) = .ok 0 ∧
    (parallel_local_dist cexX cexY).map (fun P => P.entry 0 0) = .ok (squash 1) ∧
    squash 1 ≠ 0 :=
  ⟨serial_cex_entry, parallel_cex_entry, ne_of_gt squash_one_pos⟩

lemma matEq_refl (A : Mat) : matEq A A := ⟨rfl, rfl, fun _ _ _ _ => rfl⟩

lemma matEq_symm {A B : Mat} (hAB : matEq A B) : matEq B A := by
  obtain ⟨h1, h2, h3⟩ := hAB
  exact ⟨h1.symm, h2.symm, fun i j hi hj => (h3 i j (h1 ▸ hi) (h2 ▸ hj)).symm⟩

lemma matEq_trans {A B C : Mat} (hAB : matEq A B) (hBC : matEq B C) : matEq A C := by
  obtain ⟨h1, h2, h3⟩ := hAB
  obtain ⟨h4, h5, h6⟩ := hBC
  exact ⟨h1.trans h4, h2.trans h5,
    fun i j hi hj => (h3 i j hi hj).trans (h6 i j (h1 ▸ hi) (h2 ▸ hj))⟩

lemma sectionSizes_sum (len k : ℕ) (hk : 1 ≤ k) : (sectionSizes len k).sum = len := by
  unfold sectionSizes
  rw [List.sum_append, List.sum_replicate, List.sum_replicate, smul_eq_mul, smul_eq_mul]
  rw [Nat.mul_succ, Nat.sub_mul]
  have hlt : len % k < k := Nat.mod_lt len (by omega)
  have h2 : k * (len / k) + len % k = len := Nat.div_add_mod len k
  have hmul : len % k * (len / k) ≤ k * (len / k) := Nat.mul_le_mul_right _ hlt.le
  set p := len % k * (len / k) with hp
  set q := k * (len / k) with hq
  omega

lemma sectionSizes_length (len k : ℕ) (hk : 1 ≤ k) : (sectionSizes len k).length = k := by
  unfold sectionSizes
  rw [List.length_append, List.length_replicate, List.length_replicate]
  have hlt : len % k < k := Nat.mod_lt len (by omega)
  omega

lemma splitRowsAt_length (sizes : List ℕ) :
    ∀ A : Mat, (splitRowsAt A sizes).length = sizes.length := by
  induction sizes with
  | nil => intro A; rfl
  | cons s rest ih =>
      intro A
      simp only [splitRowsAt, List.length_cons, ih]

lemma concatRows_cons (X : Mat) (L : List Mat) (hL : L ≠ []) :
    concatRows (X :: L) = (concatRows L).bind (fun C =>
      if X.cols = C.cols then
        Except.ok ⟨X.rows + C.rows, X.cols, fun i j =>
          if i < X.rows then X.entry i j else C.entry (i - X.rows) j⟩
      else Except.error Err.shapeMismatch) := by
  cases L with
  | nil => exact absurd rfl hL
  | cons B rest => rfl

lemma concatCols_cons (X : Mat) (L : List Mat) (hL : L ≠ []) :
    concatCols (X :: L) = (concatCols L).bind (fun C =>
      if X.rows = C.rows then
        Except.ok ⟨X.rows, X.cols + C.cols, fun i j =>
          if j < X.cols then X.entry i j else C.entry i (j - X.cols)⟩
      else Except.error Err.shapeMismatch) := by
  cases L with
  | nil => exact absurd rfl hL
  | cons B rest => rfl

lemma concatRows_split (f : Mat → Mat → Mat) (y : Mat) (g : (ℕ → ℝ) → ℕ → ℝ) (N : ℕ)
    (Hf : ∀ A : Mat, matEq (f A y) ⟨A.rows, N, fun i j => g (A.entry i) j⟩) :
    ∀ (sizes : List ℕ) (A : Mat), sizes ≠ [] → sizes.sum = A.rows →
      ∃ R, concatRows ((splitRowsAt A sizes).map (fun part => f part y)) = .ok R ∧
        matEq R ⟨A.rows, N, fun i j => g (A.entry i) j⟩ := by
  intro sizes
  induction sizes with
  | nil => intro A hne _; exact absurd rfl hne
  | cons s rest ih =>
      intro A _ hsum
      cases rest with
      | nil =>
          refine ⟨f ⟨s, A.cols, fun i j => A.entry i j⟩ y, rfl, ?_⟩
          have hs : s = A.rows := by simpa using hsum
          have h := Hf ⟨s, A.cols, fun i j => A.entry i j⟩
          rw [← hs]
          exact h
      | cons s2 rest2 =>
          have hsle : s ≤ A.rows := by
            simp only [List.sum_cons] at hsum
            omega
          have hsum' : (s2 :: rest2).sum = A.rows - s := by
            simp only [List.sum_cons] at hsum ⊢
            omega
          obtain ⟨R', hR', hmEq⟩ :=
            ih ⟨A.rows - s, A.cols, fun i j => A.entry (s + i) j⟩ (by simp) hsum'
          have hsplit : splitRowsAt A (s :: s2 :: rest2) =
              (⟨s, A.cols, fun i j => A.entry i j⟩ : Mat) ::
                splitRowsAt ⟨A.rows - s, A.cols, fun i j => A.entry (s + i) j⟩
                  (s2 :: rest2) := rfl
          rw [hsplit, List.map_cons]
          rw [concatRows_cons _ _ (by
            intro hc
            have hl := congrArg List.length hc
            rw [List.length_map, splitRowsAt_length] at hl
            simp at hl)]
          rw [hR']
          simp only [bind, Except.bind]
          have hXr : (f ⟨s, A.cols, fun i j => A.entry i j⟩ y).rows = s :=
            (Hf ⟨s, A.cols, fun i j => A.entry i j⟩).1
          have hXc : (f ⟨s, A.cols, fun i j => A.entry i j⟩ y).cols = N :=
            (Hf ⟨s, A.cols, fun i j => A.entry i j⟩).2.1
          have hRr : R'.rows = A.rows - s := hmEq.1
          have hRc : R'.cols = N := hmEq.2.1
          rw [if_pos (hXc.trans hRc.symm)]
          refine ⟨_, rfl, ⟨by simp only []; omega, by simp only []; exact hXc, ?_⟩⟩
          intro i j hi hj
          simp only [] at hi hj ⊢
          by_cases hcase : i < (f ⟨s, A.cols, fun i j => A.entry i j⟩ y).rows
          · rw [if_pos hcase]
            exact (Hf ⟨s, A.cols, fun i j => A.entry i j⟩).2.2 i j hcase hj
          · rw [if_neg hcase]
            have h6 : i - (f ⟨s, A.cols, fun i j => A.entry i j⟩ y).rows < R'.rows := by omega
            have h7 : j < R'.cols := by omega
            have h8 := hmEq.2.2 (i - (f ⟨s, A.cols, fun i j => A.entry i j⟩ y).rows) j h6 h7
            rw [h8]
            show g (fun j2 =>
              A.entry (s + (i - (f ⟨s, A.cols, fun i j => A.entry i j⟩ y).rows)) j2) j =
              g (A.entry i) j
            have h9 : s + (i - (f ⟨s, A.cols, fun i j => A.entry i j⟩ y).rows) = i := by omega
            rw [h9]

lemma concatCols_split (f : Mat → Mat → Mat) (x : Mat) (h : ℕ → (ℕ → ℝ) → ℝ) (M : ℕ)
    (Hf : ∀ B : Mat, matEq (f x B) ⟨M, B.rows, fun i j => h i (B.entry j)⟩) :
    ∀ (sizes : List ℕ) (B : Mat), sizes ≠ [] → sizes.sum = B.rows →
      ∃ R, concatCols ((splitRowsAt B sizes).map (fun part => f x part)) = .ok R ∧
        matEq R ⟨M, B.rows, fun i j => h i (B.entry j)⟩ := by
  intro sizes
  induction sizes with
  | nil => intro B hne _; exact absurd rfl hne
  | cons s rest ih =>
      intro B _ hsum
      cases rest with
      | nil =>
          refine ⟨f x ⟨s, B.cols, fun i j => B.entry i j⟩, rfl, ?_⟩
          have hs : s = B.rows := by simpa using hsum
          have h1 := Hf ⟨s, B.cols, fun i j => B.entry i j⟩
          rw [← hs]
          exact h1
      | cons s2 rest2 =>
          have hsle : s ≤ B.rows := by
            simp only [List.sum_cons] at hsum
            omega
          have hsum' : (s2 :: rest2).sum = B.rows - s := by
            simp only [List.sum_cons] at hsum ⊢
            omega
          obtain ⟨R', hR', hmEq⟩ :=
            ih ⟨B.rows - s, B.cols, fun i j => B.entry (s + i) j⟩ (by simp) hsum'
          have hsplit : splitRowsAt B (s :: s2 :: rest2) =
              (⟨s, B.cols, fun i j => B.entry i j⟩ : Mat) ::
                splitRowsAt ⟨B.rows - s, B.cols, fun i j => B.entry (s + i) j⟩
                  (s2 :: rest2) := rfl
          rw [hsplit, List.map_cons]
          rw [concatCols_cons _ _ (by
            intro hc
            have hl := congrArg List.length hc
            rw [List.length_map, splitRowsAt_length] at hl
            simp at hl)]
          rw [hR']
          simp only [bind, Except.bind]
          have hXr : (f x ⟨s, B.cols, fun i j => B.entry i j⟩).rows = M :=
            (Hf ⟨s, B.cols, fun i j => B.entry i j⟩).1
          have hXc : (f x ⟨s, B.cols, fun i j => B.entry i j⟩).cols = s :=
            (Hf ⟨s, B.cols, fun i j => B.entry i j⟩).2.1
          have hRr : R'.rows = M := hmEq.1
          have hRc : R'.cols = B.rows - s := hmEq.2.1
          rw [if_pos (hXr.trans hRr.symm)]
          refine ⟨_, rfl, ⟨by simp only []; exact hXr, by simp only []; omega, ?_⟩⟩
          intro i j hi hj
          simp only [] at hi hj ⊢
          by_cases hcase : j < (f x ⟨s, B.cols, fun i j => B.entry i j⟩).cols
          · rw [if_pos hcase]
            exact (Hf ⟨s, B.cols, fun i j => B.entry i j⟩).2.2 i j hi hcase
          · rw [if_neg hcase]
            have h6 : j - (f x ⟨s, B.cols, fun i j => B.entry i j⟩).cols < R'.cols := by omega
            have h7 : i < R'.rows := by omega
            have h8 := hmEq.2.2 i (j - (f x ⟨s, B.cols, fun i j => B.entry i j⟩).cols) h7 h6
            rw [h8]
            show h i (fun i2 =>
              B.entry (s + (j - (f x ⟨s, B.cols, fun i j => B.entry i j⟩).cols)) i2) =
              h i (B.entry j)
            have h9 : s + (j - (f x ⟨s, B.cols, fun i j => B.entry i j⟩).cols) = j := by omega
            rw [h9]

lemma lowmem_x_eq (x y : Mat) (f : Mat → Mat → Mat) (k : ℕ) (hk : k ≠ 0) :
    low_memory_matrix_op x y f .x 0 k =
      concatRows ((splitRowsAt x (sectionSizes x.rows k)).map (fun part => f part y)) := by
  simp only [low_memory_matrix_op, array_split]
  rw [if_neg (show ¬(2 ≤ (0 : ℕ)) by omega), if_neg hk, if_pos trivial]
  rfl

lemma lowmem_y_eq (x y : Mat) (f : Mat → Mat → Mat) (k : ℕ) (hk : k ≠ 0) :
    low_memory_matrix_op x y f .y 0 k =
      concatCols ((splitRowsAt y (sectionSizes y.rows k)).map (fun part => f x part)) := by
  simp only [low_memory_matrix_op, array_split]
  rw [if_neg (show ¬(2 ≤ (0 : ℕ)) by omega), if_neg hk, if_pos trivial]
  rfl

lemma concatRows_ne_invalidSplit (L : List Mat) : concatRows L ≠ .error .invalidSplit := by
  induction L with
  | nil =>
      intro hc
      injection hc with h2
      exact Err.noConfusion h2
  | cons A rest ih =>
      cases rest with
      | nil => intro hc; exact Except.noConfusion hc
      | cons B rest2 =>
          intro hc
          rw [concatRows_cons A (B :: rest2) (by simp)] at hc
          cases hC : concatRows (B :: rest2) with
          | error e =>
              rw [hC] at hc
              simp only [Except.bind] at hc
              injection hc with h2
              rw [h2] at hC
              exact ih hC
          | ok C =>
              rw [hC] at hc
              simp only [Except.bind] at hc
              by_cases hcol : A.cols = C.cols
              · rw [if_pos hcol] at hc
                exact Except.noConfusion hc
              · rw [if_neg hcol] at hc
                injection hc with h2
                exact Err.noConfusion h2

lemma concatCols_ne_invalidSplit (L : List Mat) : concatCols L ≠ .error .invalidSplit := by
  induction L with
  | nil =>
      intro hc
      injection hc with h2
      exact Err.noConfusion h2
  | cons A rest ih =>
      cases rest with
      | nil => intro hc; exact Except.noConfusion hc
      | cons B rest2 =>
          intro hc
          rw [concatCols_cons A (B :: rest2) (by simp)] at hc
          cases hC : concatCols (B :: rest2) with
          | error e =>
              rw [hC] at hc
              simp only [Except.bind] at hc
              injection hc with h2
              rw [h2] at hC
              exact ih hC
          | ok C =>
              rw [hC] at hc
              simp only [Except.bind] at hc
              by_cases hrow : A.rows = C.rows
              · rw [if_pos hrow] at hc
                exact Except.noConfusion hc
              · rw [if_neg hrow] at hc
                injection hc with h2
                exact Err.noConfusion h2

/-- C4 counterexample: the claimed equivalence cannot hold for every
function `f`.  For `f(A, _) = [[A.rows]]` (a legal matrix function of the
operands), splitting the 2-row operand into 2 parts yields a 2-row output
while the direct call yields a 1-row output. -/
theorem c4_counterexample :
    (low_memory_matrix_op cexMatX cexMatY fBad .x 0 2).map Mat.rows = .ok 2 ∧
    (fBad cexMatX cexMatY).rows = 1 ∧ (2 : ℕ) ≠ 1 :=
  ⟨rfl, rfl, by omega⟩

/-- C4 amended: the chunked evaluator reproduces the direct call elementwise
for every matrix function that computes its output rows pointwise from the
elements of the split operand (entry `[i, j]` from element `i` of `x` and
all of `y` when `x` is split, and from element `j` of `y` and all of `x`
when `y` is split — the documented `func(x, y) -> [M, N]` contract), with
the operand split along its element axis, for every split count `k ≥ 1`
(including `k` greater than the axis length, where the extra parts are
empty).  For arbitrary `f` the equivalence fails. -/
theorem c4_chunked_equiv_amended :
    (∀ (x y : Mat) (f : Mat → Mat → Mat) (g : (ℕ → ℝ) → ℕ → ℝ) (N k : ℕ),
      (∀ A : Mat, matEq (f A y) ⟨A.rows, N, fun i j => g (A.entry i) j⟩) → 1 ≤ k →
      ∃ R, low_memory_matrix_op x y f .x 0 k = .ok R ∧ matEq R (f x y)) ∧
    (∀ (x y : Mat) (f : Mat → Mat → Mat) (h : ℕ → (ℕ → ℝ) → ℝ) (M k : ℕ),
      (∀ B : Mat, matEq (f x B) ⟨M, B.rows, fun i j => h i (B.entry j)⟩) → 1 ≤ k →
      ∃ R, low_memory_matrix_op x y f .y 0 k = .ok R ∧ matEq R (f x y)) := by
  constructor
  · intro x y f g N k Hf hk
    obtain ⟨R, hR, hEq⟩ := concatRows_split f y g N Hf (sectionSizes x.rows k) x
      (by
        intro hc
        have hl := congrArg List.length hc
        rw [sectionSizes_length x.rows k hk] at hl
        simp at hl
        omega)
      (sectionSizes_sum x.rows k hk)
    refine ⟨R, ?_, matEq_trans hEq (matEq_symm (Hf x))⟩
    rw [lowmem_x_eq x y f k (by omega)]
    exact hR
  · intro x y f h M k Hf hk
    obtain ⟨R, hR, hEq⟩ := concatCols_split f x h M Hf (sectionSizes y.rows k) y
      (by
        intro hc
        have hl := congrArg List.length hc
        rw [sectionSizes_length y.rows k hk] at hl
        simp at hl
        omega)
      (sectionSizes_sum y.rows k hk)
    refine ⟨R, ?_, matEq_trans hEq (matEq_symm (Hf y))⟩
    rw [lowmem_y_eq x y f k (by omega)]
    exact hR

/-- Witness for C4's amended statement: a pairwise function evaluated
chunked over the 2-row operand with 2 splits. -/
theorem c4_chunked_equiv_amended_witness :
    ∃ R, low_memory_matrix_op cexMatX cexMatY
        (fun A _ => ⟨A.rows, 1, fun i _ => A.entry i 0⟩) .x 0 2 = .ok R ∧
      matEq R ((fun A (_ : Mat) => (⟨A.rows, 1, fun i _ => A.entry i 0⟩ : Mat))
        cexMatX cexMatY) :=
  c4_chunked_equiv_amended.1 cexMatX cexMatY
    (fun A _ => ⟨A.rows, 1, fun i _ => A.entry i 0⟩) (fun r _ => r 0) 1 2
    (fun A => matEq_refl _) (by omega)

/-- C10 counterexample: a split count larger than the split-axis length is
accepted, not rejected: with 3 splits of a 2-row operand the evaluator
succeeds (the third part is empty). -/
theorem c10_counterexample :
    (low_memory_matrix_op cexMatX cexMatY fPair .x 0 3).map Mat.rows = .ok 2 ∧
    cexMatX.rows < 3 :=
  ⟨rfl, by decide⟩

/-- C10 amended: for a valid axis, `low_memory_matrix_op` fails with the
invalid-split error exactly when the split count is below 1 (`np.array_split`
rejects non-positive section counts); split counts above the axis length are
accepted and produce empty parts. -/
theorem c10_invalid_split_amended (x y : Mat) (f : Mat → Mat → Mat)
    (s : SplitChoice) (axis k : ℕ) (ha : axis ≤ 1) :
    low_memory_matrix_op x y f s axis k = .error .invalidSplit ↔ k = 0 := by
  constructor
  · intro hres
    by_contra hk
    cases s with
    | x =>
        simp only [low_memory_matrix_op, array_split] at hres
        rw [if_neg (show ¬(2 ≤ axis) by omega), if_neg hk] at hres
        by_cases haxis : axis = 0
        · rw [if_pos haxis] at hres
          simp only [bind, Except.bind] at hres
          exact concatRows_ne_invalidSplit _ hres
        · rw [if_neg haxis] at hres
          simp only [bind, Except.bind] at hres
          exact concatRows_ne_invalidSplit _ hres
    | y =>
        simp only [low_memory_matrix_op, array_split] at hres
        rw [if_neg (show ¬(2 ≤ axis) by omega), if_neg hk] at hres
        by_cases haxis : axis = 0
        · rw [if_pos haxis] at hres
          simp only [bind, Except.bind] at hres
          exact concatCols_ne_invalidSplit _ hres
        · rw [if_neg haxis] at hres
          simp only [bind, Except.bind] at hres
          exact concatCols_ne_invalidSplit _ hres
  · rintro rfl
    cases s with
    | x =>
        simp only [low_memory_matrix_op, array_split]
        rw [if_neg (show ¬(2 ≤ axis) by omega), if_pos trivial]
        rfl
    | y =>
        simp only [low_memory_matrix_op, array_split]
        rw [if_neg (show ¬(2 ≤ axis) by omega), if_pos trivial]
        rfl

/-- Witness for C10's amended statement: split count 0 is rejected. -/
theorem c10_invalid_split_amended_witness :
    low_memory_matrix_op cexMatX cexMatY fPair .x 0 0 = .error .invalidSplit :=
  (c10_invalid_split_amended cexMatX cexMatY fPair .x 0 0 (by omega)).mpr rfl

lemma floatEps_pos : 0 < floatEps := by
  norm_num [floatEps]

lemma lpNorm2_nonneg (v : List ℝ) : 0 ≤ lpNorm2 v := Real.sqrt_nonneg _

lemma sumSq_nonneg (v : List ℝ) : 0 ≤ (v.map (fun a => a ^ 2)).sum := by
  refine List.sum_nonneg ?_
  intro x hx
  obtain ⟨a, _, rfl⟩ := List.mem_map.mp hx
  exact sq_nonneg a

lemma lpNorm2_map_div (v : List ℝ) (D : ℝ) (hD : 0 < D) :
    lpNorm2 (v.map (fun a => a / D)) = lpNorm2 v / D := by
  unfold lpNorm2
  rw [List.map_map]
  have hfun : ((fun a => a ^ 2) ∘ fun a => a / D) = fun a => a ^ 2 * (D ^ 2)⁻¹ := by
    funext a
    simp only [Function.comp]
    rw [div_pow, div_eq_mul_inv]
  rw [hfun, List.sum_map_mul_right, ← div_eq_mul_inv,
    Real.sqrt_div (sumSq_nonneg v), Real.sqrt_sq hD.le]

lemma lpNorm2_normalize (v : List ℝ) :
    lpNorm2 (normalize v) = lpNorm2 v / (lpNorm2 v + floatEps) := by
  have hD : 0 < lpNorm2 v + floatEps := by
    have h1 := lpNorm2_nonneg v
    have h2 := floatEps_pos
    linarith
  exact lpNorm2_map_div v _ hD

/-- C6 counterexample: the nonzero vector `[eps]` (with `eps` the float32
machine epsilon added to the norm) normalizes to `[1/2]`, whose norm `1/2`
is not within any reasonable tolerance of 1 — the claimed unit-norm property
fails for nonzero vectors whose norm is comparable to the epsilon. -/
theorem c6_counterexample :
    (floatEps : ℝ) ≠ 0 ∧
    lpNorm2 (normalize [floatEps]) = 1 / 2 ∧
    ¬ (|lpNorm2 (normalize [floatEps]) - 1| ≤ 1 / 4) := by
  have hE : (0 : ℝ) < floatEps := floatEps_pos
  have hL : lpNorm2 [floatEps] = floatEps := by
    unfold lpNorm2
    simp [Real.sqrt_sq hE.le]
  have hval : lpNorm2 (normalize [floatEps]) = 1 / 2 := by
    rw [lpNorm2_normalize, hL]
    rw [div_eq_iff (by positivity)]
    ring
  refine ⟨hE.ne', hval, ?_⟩
  rw [hval]
  rw [show (1 : ℝ) / 2 - 1 = -(1 / 2) by norm_num, abs_neg, abs_of_nonneg (by norm_num)]
  norm_num

/-- C6 amended: the computed norm is padded with the strictly positive
float32 epsilon, so the divisor is never zero; the vector maps to a vector
of norm `L / (L + eps)`, which is within `eps` of 1 whenever the input norm
`L` is at least 1 (but not for nonzero vectors with norm comparable to
`eps`); and the zero vector maps exactly to the zero vector, so no NaN/Inf
can arise. -/
theorem c6_normalize_amended :
    (∀ v : List ℝ, 1 ≤ lpNorm2 v → |lpNorm2 (normalize v) - 1| ≤ floatEps) ∧
    (∀ v : List ℝ, 0 < lpNorm2 v + floatEps) ∧
    (∀ n : ℕ, normalize (List.replicate n 0) = List.replicate n 0) := by
  have hDpos : ∀ v : List ℝ, 0 < lpNorm2 v + floatEps := by
    intro v
    have h1 := lpNorm2_nonneg v
    have h2 := floatEps_pos
    linarith
  refine ⟨fun v hv => ?_, hDpos, fun n => ?_⟩
  · rw [lpNorm2_normalize]
    have hD := hDpos v
    rw [div_sub_one hD.ne']
    rw [show lpNorm2 v - (lpNorm2 v + floatEps) = -floatEps by ring, neg_div, abs_neg,
      abs_of_nonneg (div_nonneg floatEps_pos.le hD.le)]
    rw [div_le_iff₀ hD]
    have h1 : 1 ≤ lpNorm2 v + floatEps := by
      have := floatEps_pos
      linarith
    nlinarith [floatEps_pos]
  · unfold normalize
    rw [List.map_replicate, zero_div]

/-- Witness for C6's amended statement at the unit vector `[1]` and the
zero vector of length 1. -/
theorem c6_normalize_amended_witness :
    |lpNorm2 (normalize [1]) - 1| ≤ floatEps ∧
    0 < lpNorm2 [1] + floatEps ∧
    normalize (List.replicate 1 0) = List.replicate 1 0 := by
  have hone : lpNorm2 [1] = 1 := by
    unfold lpNorm2
    simp
  exact ⟨c6_normalize_amended.1 [1] (le_of_eq hone.symm),
    c6_normalize_amended.2.1 [1],
    c6_normalize_amended.2.2 1⟩

/-- C2: for every cost array of shape `[m, n]` (both at least 1, possibly
with trailing batch dimensions), `shortest_dist` succeeds, drops the two
leading dimensions, and every batch slice of the result is the minimum over
all monotonic down/right paths from `(0, 0)` to `(m-1, n-1)` of the summed
cost along the path: it is a lower bound of all path costs and is attained
by some path. -/
theorem c2_shortest_dist_min_path (t : Tensor) (m n : ℕ) (rest : List ℕ)
    (hs : t.shape = m :: n :: rest) (hm : 1 ≤ m) (hn : 1 ≤ n) :
    ∃ r, shortest_dist t = .ok r ∧ r.shape = rest ∧
      ∀ idx : List ℕ,
        (∀ p ∈ allPaths (m - 1) (n - 1),
            r.entry idx ≤ pathCost (fun i j => t.entry (i :: j :: idx)) p) ∧
        ∃ p, p ∈ allPaths (m - 1) (n - 1) ∧
            r.entry idx = pathCost (fun i j => t.entry (i :: j :: idx)) p := by
  refine ⟨⟨rest, fun idx => dpCell (fun i j => t.entry (i :: j :: idx)) (m - 1) (n - 1)⟩,
    ?_, rfl, ?_⟩
  · unfold shortest_dist
    rw [hs]
    have : ¬(m = 0 ∨ n = 0) := by omega
    simp only [this, if_false]
  · intro idx
    exact ⟨fun p hp => dpCell_le _ ((m - 1) + (n - 1)) (m - 1) (n - 1) le_rfl p hp,
      dpCell_attained _ ((m - 1) + (n - 1)) (m - 1) (n - 1) le_rfl⟩

/-- Witness for C2 at the concrete 1-by-1 zero cost matrix. -/
theorem c2_shortest_dist_min_path_witness :
    ∃ r, shortest_dist ⟨[1, 1], fun _ => 0⟩ = .ok r ∧ r.shape = [] ∧
      ∀ idx : List ℕ,
        (∀ p ∈ allPaths 0 0,
            r.entry idx ≤ pathCost (fun i j => Tensor.entry ⟨[1, 1], fun _ => 0⟩ (i :: j :: idx)) p) ∧
        ∃ p, p ∈ allPaths 0 0 ∧
            r.entry idx = pathCost (fun i j => Tensor.entry ⟨[1, 1], fun _ => 0⟩ (i :: j :: idx)) p :=
  c2_shortest_dist_min_path ⟨[1, 1], fun _ => 0⟩ 1 1 [] rfl le_rfl le_rfl

end

end AlignedReID
